import Mathlib

/-!
Verification of the poker hand-history parsing library against its
specification.  The definitions below are a shallow embedding of the
Python sources:

  * `src/poker/card.py`                — `Rank`, `Suit`, `Card`
  * `src/poker/handhistory.py`         — `_BaseStreet`, `_BaseHandHistory`,
                                         `_SplittableHandHistory`
  * `src/poker/room/fulltiltpoker.py`  — `_Street`, `FullTiltPokerHandHistory`

Pure functions become Lean functions; the stateful parse pipeline becomes
explicit state passing; fallible code returns `Option`/`Except`.
-/

namespace Poker

/-! ### Rank and Suit (`src/poker/card.py`) -/

/-- The 13 ranks, in the order of `Rank.__order__`:
`DEUCE THREE FOUR FIVE SIX SEVEN EIGHT NINE TEN JACK QUEEN KING ACE`. -/
inductive Rank where
  | DEUCE | THREE | FOUR | FIVE | SIX | SEVEN | EIGHT | NINE
  | TEN | JACK | QUEEN | KING | ACE
  deriving DecidableEq, Repr

/-- The 4 suits, in the order of `Suit.__order__`:
`CLUBS DIAMONDS HEARTS SPADES`. -/
inductive Suit where
  | CLUBS | DIAMONDS | HEARTS | SPADES
  deriving DecidableEq, Repr

/-- `list(Rank)`: the canonical rank sequence the enum iterates in. -/
def rankList : List Rank :=
  [.DEUCE, .THREE, .FOUR, .FIVE, .SIX, .SEVEN, .EIGHT, .NINE,
   .TEN, .JACK, .QUEEN, .KING, .ACE]

/-- `rank_list.index(r)` in `Rank.difference`: position of a rank in the
canonical sequence. -/
def Rank.listIndex (r : Rank) : Nat := rankList.indexOf r

/-- `Rank.difference(first, second)`:
`abs(rank_list.index(first) - rank_list.index(second))`. -/
def Rank.difference (first second : Rank) : Nat :=
  ((first.listIndex : Int) - (second.listIndex : Int)).natAbs

/-- Modelled from the spec: the enum value lookup `Rank(ch)` performed by
`PokerEnum.__call__` (defined in `poker/_common.py`, which is not part of
the provided sources).  It recognizes the single-character rank symbols of
the `Rank` table in `card.py`; per the spec, rank letters are
case-normalized to uppercase. -/
def Rank.ofChar : Char → Option Rank
  | '2' => some .DEUCE
  | '3' => some .THREE
  | '4' => some .FOUR
  | '5' => some .FIVE
  | '6' => some .SIX
  | '7' => some .SEVEN
  | '8' => some .EIGHT
  | '9' => some .NINE
  | 'T' => some .TEN
  | 't' => some .TEN
  | 'J' => some .JACK
  | 'j' => some .JACK
  | 'Q' => some .QUEEN
  | 'q' => some .QUEEN
  | 'K' => some .KING
  | 'k' => some .KING
  | 'A' => some .ACE
  | 'a' => some .ACE
  | _ => none

/-- Modelled from the spec: the enum value lookup `Suit(ch)` performed by
`PokerEnum.__call__` (defined in `poker/_common.py`, not in the provided
sources).  It recognizes the single-character suit codes of the `Suit`
table in `card.py`. -/
def Suit.ofChar : Char → Option Suit
  | 'c' => some .CLUBS
  | 'd' => some .DIAMONDS
  | 'h' => some .HEARTS
  | 's' => some .SPADES
  | _ => none

/-- `Rank.difference` applied to raw rank codes: both arguments are first
normalized through the enum lookup (`first, second = cls(first), cls(second)`);
an unrecognized code makes the lookup raise, modelled as `none`. -/
def Rank.differenceOfCodes (c1 c2 : Char) : Option Nat :=
  match Rank.ofChar c1, Rank.ofChar c2 with
  | some a, some b => some (Rank.difference a b)
  | _, _ => none

/-- Spec-side canonical position: the rank's index in the canonical
sequence 2,3,...,K,A, written as a direct table (independently of
`rankList.indexOf`). -/
def Rank.canonicalPos : Rank → Nat
  | .DEUCE => 0 | .THREE => 1 | .FOUR => 2 | .FIVE => 3 | .SIX => 4
  | .SEVEN => 5 | .EIGHT => 6 | .NINE => 7 | .TEN => 8 | .JACK => 9
  | .QUEEN => 10 | .KING => 11 | .ACE => 12

/-- The raw numeric face value of a rank per the `Rank` enum table
(`DEUCE = '2', 2`, ..., `ACE = 'A', 1`; J/Q/K carry no numeric value,
modelled as `none`). -/
def Rank.faceValue : Rank → Option Nat
  | .DEUCE => some 2 | .THREE => some 3 | .FOUR => some 4 | .FIVE => some 5
  | .SIX => some 6 | .SEVEN => some 7 | .EIGHT => some 8 | .NINE => some 9
  | .TEN => some 10 | .JACK => none | .QUEEN => none | .KING => none
  | .ACE => some 1

/-! ### Card (`src/poker/card.py`, `Card.__new__`) -/

/-- A card: a (Rank, Suit) pair, per `Card.__slots__ = ('rank', 'suit')`. -/
structure Card where
  rank : Rank
  suit : Suit
  deriving DecidableEq, Repr

/-- The error taxonomy of the spec for a malformed 2-character card code
(`InvalidCardFormat`): the `ValueError('length should be two ...')` raised
by `Card.__new__`, or the enum lookup failure of `Rank(card[0])` /
`Suit(card[1])`. -/
inductive InvalidCardFormat where
  | badLength (s : String)
  | badRank (c : Char)
  | badSuit (c : Char)
  deriving DecidableEq, Repr

/-- `Card.__new__(cls, card)` for a text argument: reject when the length
is not 2, otherwise look up `Rank(card[0])` and `Suit(card[1])`. -/
def Card.ofText (s : String) : Except InvalidCardFormat Card :=
  match s.data with
  | [rc, sc] =>
    match Rank.ofChar rc with
    | none => .error (.badRank rc)
    | some r =>
      match Suit.ofChar sc with
      | none => .error (.badSuit sc)
      | some su => .ok ⟨r, su⟩
  | _ => .error (.badLength s)

/-- `list(Suit)`: the suit sequence in enum declaration order. -/
def suitList : List Suit := [.CLUBS, .DIAMONDS, .HEARTS, .SPADES]

/-- Position of a suit in the enum declaration order. -/
def Suit.listIndex (s : Suit) : Nat := suitList.indexOf s

/-- `Card.__lt__`: with same ranks, suit counts; otherwise compare ranks.
Rank and suit order is the enum declaration order.  Total: no error is
possible at comparison time. -/
def Card.lt (a b : Card) : Bool :=
  if a.rank = b.rank then decide (a.suit.listIndex < b.suit.listIndex)
  else decide (a.rank.listIndex < b.rank.listIndex)

/-! ### Street texture analyzer (`src/poker/handhistory.py`, `_BaseStreet`)

`_BaseStreet.__init__` stores `itertools.combinations(self.cards, 2)` — a
one-shot generator — in `self._all_combinations`.  Every texture property
is a `cached_property` whose `all(...)`/`any(...)` iterates that shared
generator, consuming it (and, on short-circuit, consuming it only up to
and including the deciding pair).  The model below threads the generator's
remaining items and the per-property cache explicitly. -/

/-- `itertools.combinations(cards, 2)`: all unordered pairs, in the order
the generator yields them. -/
def pairsOf : List Card → List (Card × Card)
  | [] => []
  | c :: rest => rest.map (fun d => (c, d)) ++ pairsOf rest

/-- Python `all(p(x) for x in gen)` over a generator: consumes items until
the first one falsifying `p` (inclusive) or until exhaustion; returns the
boolean and the generator's remaining items. -/
def consumeAll (p : Card × Card → Bool) :
    List (Card × Card) → Bool × List (Card × Card)
  | [] => (true, [])
  | x :: rest => if p x then consumeAll p rest else (false, rest)

/-- Python `any(p(x) for x in gen)` over a generator: consumes items until
the first one satisfying `p` (inclusive) or until exhaustion; returns the
boolean and the generator's remaining items. -/
def consumeAny (p : Card × Card → Bool) :
    List (Card × Card) → Bool × List (Card × Card)
  | [] => (false, [])
  | x :: rest => if p x then (true, rest) else consumeAny p rest

/-- The seven pair-wise texture properties of `_BaseStreet`. -/
inductive TQ where
  | isRainbow | isMonotone | isTriplet | hasPair
  | hasFlushdraw | hasStraightdraw | hasGutshot
  deriving DecidableEq, Repr

/-- Whether the property is an `all(...)` (true) or an `any(...)` (false). -/
def TQ.isAll : TQ → Bool
  | .isRainbow => true
  | .isMonotone => true
  | .isTriplet => true
  | _ => false

/-- The per-pair predicate of each texture property, straight from the
`_BaseStreet` bodies (`_get_differences` maps a pair to
`Rank.difference(first.rank, second.rank)`). -/
def TQ.pred : TQ → Card × Card → Bool
  | .isRainbow => fun p => decide (p.1.suit ≠ p.2.suit)
  | .isMonotone => fun p => decide (p.1.suit = p.2.suit)
  | .isTriplet => fun p => decide (p.1.rank = p.2.rank)
  | .hasPair => fun p => decide (p.1.rank = p.2.rank)
  | .hasFlushdraw => fun p => decide (p.1.suit = p.2.suit)
  | .hasStraightdraw => fun p =>
      let d := Rank.difference p.1.rank p.2.rank
      decide (1 ≤ d ∧ d ≤ 3)
  | .hasGutshot => fun p =>
      let d := Rank.difference p.1.rank p.2.rank
      decide (1 ≤ d ∧ d ≤ 4)

/-- Evaluating one texture property against a generator state: the
`all`/`any` run with its short-circuit consumption. -/
def TQ.run (q : TQ) (pairs : List (Card × Card)) :
    Bool × List (Card × Card) :=
  if q.isAll then consumeAll q.pred pairs else consumeAny q.pred pairs

/-- A `_BaseStreet` instance's texture-relevant state: the remaining items
of the shared `_all_combinations` generator, and the `cached_property`
cache. -/
structure TState where
  remaining : List (Card × Card)
  cache : List (TQ × Bool)
  deriving Repr

/-- Fresh instance state after `__init__`: a full generator, empty cache. -/
def initT (cards : List Card) : TState := ⟨pairsOf cards, []⟩

/-- Querying one texture property on an instance: a cache hit returns the
cached value and leaves the generator alone; a miss runs the `all`/`any`
over the generator's remaining items, consuming them, and caches the
result. -/
def queryT (st : TState) (q : TQ) : Bool × TState :=
  match st.cache.lookup q with
  | some b => (b, st)
  | none =>
    let r := q.run st.remaining
    (r.1, ⟨r.2, (q, r.1) :: st.cache⟩)

/-- Querying a sequence of texture properties on one instance, in order,
returning the observed booleans. -/
def queryList (st : TState) : List TQ → List Bool
  | [] => []
  | q :: rest =>
    let r := queryT st q
    r.1 :: queryList r.2 rest

/-- The value the spec prescribes for a texture property: the `all`/`any`
computed over all unordered pairs of the street's cards. -/
def specTexture (q : TQ) (cards : List Card) : Bool :=
  if q.isAll then (pairsOf cards).all q.pred else (pairsOf cards).any q.pred

/-! ### Street actions (`src/poker/room/fulltiltpoker.py`, `_Street`) -/

/-- Modelled from the spec: the `Action` enum of `poker/constants.py`
(not in the provided sources); only the members `fulltiltpoker.py` names,
plus the generic verbs parsed by `_parse_player_action`. -/
inductive ActionKind where
  | RETURN | RAISE | WIN | MUCK | THINK | BET | CALL | CHECK | FOLD
  deriving DecidableEq, Repr

/-- `_PlayerAction` named tuple: `name, action, amount` (amount nullable). -/
structure PlayerAction where
  name : String
  action : ActionKind
  amount : Option Nat
  deriving DecidableEq, Repr

/-- One action line, already classified the way `_Street._parse_actions`
branches on substrings, with the fields its `_parse_*` helper extracts:
`winsPot` carries the amount between the first `(` and the final `)`. -/
inductive ActionLine where
  | uncalled (name : String) (amount : Nat)
  | raiseTo (name : String) (amount : Nat)
  | winsPot (name : String) (amount : Nat)
  | mucks (name : String)
  | think (name : String)
  | playerAct (name : String) (act : ActionKind) (amount : Option Nat)
  deriving DecidableEq, Repr

/-- The `_PlayerAction` each branch of `_parse_actions` appends.  For a
`wins the pot` line, `_parse_win` also assigns `self.pot` to the
parenthesized amount; the returned pair carries that pot update. -/
def parseActionLine (l : ActionLine) : PlayerAction × Option Nat :=
  match l with
  | .uncalled n a => (⟨n, .RETURN, some a⟩, none)
  | .raiseTo n a => (⟨n, .RAISE, some a⟩, none)
  | .winsPot n a => (⟨n, .WIN, some a⟩, some a)
  | .mucks n => (⟨n, .MUCK, none⟩, none)
  | .think n => (⟨n, .THINK, none⟩, none)
  | .playerAct n k a => (⟨n, k, a⟩, none)

/-- The loop body of `_Street._parse_actions`, threading the accumulated
action list and the street's `pot` field (initialized to `None` in
`_BaseStreet.__init__`; overwritten by each `_parse_win`). -/
def parseActionsLoop :
    List ActionLine → List PlayerAction → Option Nat →
    List PlayerAction × Option Nat
  | [], acc, pot => (acc, pot)
  | l :: rest, acc, pot =>
    let r := parseActionLine l
    parseActionsLoop rest (acc ++ [r.1]) (r.2.orElse (fun _ => pot))

/-- `_Street._parse_actions`: run the loop over all action lines (each
win line overwrites `self.pot`, other lines leave it), then store
`tuple(actions) if actions else None` in `self.actions`. -/
def parseActions (lines : List ActionLine) :
    Option (List PlayerAction) × Option Nat :=
  let r := parseActionsLoop lines [] none
  (if r.1 = [] then none else some r.1, r.2)

/-- The parenthesized amount of a win line, `none` for other lines. -/
def winAmount : ActionLine → Option (String × Nat)
  | .winsPot n a => some (n, a)
  | _ => none

/-! ### `_BaseStreet.players` (`src/poker/handhistory.py`) -/

/-- The accumulator loop of `_BaseStreet.players`: append each action's
name unless already collected. -/
def collectNames : List String → List String → List String
  | [], acc => acc
  | n :: rest, acc =>
    collectNames rest (if n ∈ acc then acc else acc ++ [n])

/-- `_BaseStreet.players`: `None` when `self.actions` is falsy (either
`None` or an empty tuple), otherwise the tuple of distinct actor names in
first-appearance order. -/
def streetPlayers (actions : Option (List PlayerAction)) :
    Option (List String) :=
  match actions with
  | none => none
  | some acts =>
    if acts.isEmpty then none
    else some (collectNames (acts.map (fun a => a.name)) [])

/-- Spec-side formulation of first-appearance deduplication: keep each
name's first occurrence, filtering later duplicates away. -/
def firstAppearance : List String → List String
  | [] => []
  | n :: rest => n :: firstAppearance (rest.filter (fun m => m != n))
termination_by l => l.length
decreasing_by
  simpa using Nat.lt_succ_of_le (List.length_filter_le _ rest)

/-! ### `_BaseHandHistory.board` (`src/poker/handhistory.py`) -/

/-- `_BaseHandHistory.board`: start from an empty list; if `self.flop` is
truthy extend with the flop's cards, then (only inside that branch) append
`self.turn` if truthy, then (only inside that branch) append `self.river`
if truthy; return `tuple(board) if board else None`. -/
def board (flop : Option (List Card)) (turn river : Option Card) :
    Option (List Card) :=
  let b : List Card :=
    match flop with
    | none => []
    | some fcards =>
      fcards ++
        (match turn with
         | none => []
         | some t =>
           t :: (match river with
                 | none => []
                 | some r => [r]))
  if b.isEmpty then none else some b

/-- `FullTiltPokerHandHistory._parse_board`: from the summary `Board`
line's card list, `self.turn = Card(cards[3]) if len(cards) > 3 else None`
and `self.river = Card(cards[4]) if len(cards) > 4 else None`. -/
def parseBoardTail (cards : List Card) : Option Card × Option Card :=
  (cards[3]?, cards[4]?)

/-! ### Players (`_Player`, `_init_seats`, `_parse_players`) -/

/-- Modelled from the spec: `Combo` (from `poker/hand.py`, not in the
provided sources) — a player's two hole cards, built in `_parse_hero` from
the two 2-character card codes of the `Dealt to` line.  Modelled as the
raw 4-character text the constructor receives. -/
abbrev Combo : Type := String

/-- `_Player` named tuple: `name, stack, seat, combo`. -/
structure Player where
  name : String
  stack : Nat
  seat : Nat
  combo : Option Combo
  deriving DecidableEq

/-- The placeholder a seat is initialized to by `_init_seats`:
`_Player(name='Empty Seat %s' % seat, stack=0, seat=seat, combo=None)`. -/
def emptySeat (seat : Nat) : Player :=
  ⟨"Empty Seat " ++ toString seat, 0, seat, none⟩

/-- `_BaseHandHistory._init_seats(player_num)`: placeholder players for
seats `1 .. player_num`. -/
def initSeats (playerNum : Nat) : List Player :=
  (List.range playerNum).map (fun i => emptySeat (i + 1))

/-- The fields `_seat_re` extracts from one `Seat N: name (stack)` line. -/
structure SeatLine where
  seat : Nat
  name : String
  stack : Nat
  deriving DecidableEq

/-- The loop of `FullTiltPokerHandHistory._parse_players` over the lines
after the header: a line is either a seat-regex match (`some`) or not
(`none`, which breaks the loop).  Each match overwrites
`players[seat - 1]` and leaves `seat` as the loop variable's last value
(`none` while no line has matched yet). -/
def parsePlayersLoop :
    List (Option SeatLine) → List Player → Option Nat →
    List Player × Option Nat
  | [], players, lastSeat => (players, lastSeat)
  | none :: _, players, lastSeat => (players, lastSeat)
  | some sl :: rest, players, _ =>
    parsePlayersLoop rest
      (players.set (sl.seat - 1) ⟨sl.name, sl.stack, sl.seat, none⟩)
      (some sl.seat)

/-- `FullTiltPokerHandHistory._parse_players`: init 9 placeholder seats,
run the loop, then `self.max_players = seat` and
`self.players = players[:seat]`.  When no line matched, `seat` was never
bound and the assignment raises (`none`). -/
def parsePlayers (lines : List (Option SeatLine)) :
    Option (List Player × Nat) :=
  match parsePlayersLoop lines (initSeats 9) none with
  | (_, none) => none
  | (players, some seat) => some (players.take seat, seat)

/-! ### Button and hero (`_parse_button`, `_parse_hero`,
`_get_hero_from_players`) -/

/-- `_BaseHandHistory._get_hero_from_players(hero_name)`: the first player
whose name matches, together with its index (`list.index` raises when the
name is absent, modelled as `none`). -/
def getHeroFromPlayers (players : List Player) (heroName : String) :
    Option (Player × Nat) :=
  match players.findIdx? (fun p => p.name == heroName) with
  | none => none
  | some i =>
    match players[i]? with
    | none => none
    | some p => some (p, i)

/-- `FullTiltPokerHandHistory._parse_button`:
`self.button = self.players[button_seat - 1]` (an out-of-range seat would
raise, modelled as `none`). -/
def parseButton (players : List Player) (buttonSeat : Nat) :
    Option Player :=
  players[buttonSeat - 1]?

/-- `FullTiltPokerHandHistory._parse_hero`: find the hero among the
players by name, replace its entry with a copy enriched with the combo
(`hero._replace(combo=...)`), store it as `self.hero`, and, when
`self.button.name == self.hero.name`, re-point `self.button` at the
enriched hero.  Returns (players, button, hero) after the stage. -/
def parseHero (players : List Player) (button : Player)
    (heroName : String) (combo : Combo) :
    Option (List Player × Player × Player) :=
  match getHeroFromPlayers players heroName with
  | none => none
  | some (hero0, i) =>
    let hero : Player := { hero0 with combo := some combo }
    let players' := players.set i hero
    let button' := if button.name = hero.name then hero else button
    some (players', button', hero)

/-! ### The parse pipeline (`_SplittableHandHistory.parse`)

`parse` runs the thirteen stage methods in a fixed order over
`self._splitted`, then `del self._splitted` and `self.parsed = True`.  A
stage method mutates room-specific fields (the `σ` below) and reads the
fragment buffer; none of them assigns `self.parsed` or `self._splitted`,
which is reflected in the stage type.  An exception propagates out of
`parse` leaving the object in its at-failure state, modelled by the
`Except` error carrying that state. -/

/-- The mutable object state `parse` manipulates: room-specific fields,
the two re-entrancy flags, and the fragment buffer (`none` once
`del self._splitted` has run). -/
structure ParseState (σ β : Type) where
  fields : σ
  headerParsed : Bool
  parsed : Bool
  splitted : Option β
  deriving DecidableEq

/-- A stage method: reads the fragment buffer (raising when it was
deleted) and transforms the room-specific fields, or raises. -/
def Stage (σ β ε : Type) : Type := Option β → σ → Except ε σ

/-- Running the stage methods in order; an exception carries the fields as
they stood when the failing stage raised. -/
def runStages (stages : List (Stage σ β ε)) (buf : Option β) (s : σ) :
    Except (ε × σ) σ :=
  match stages with
  | [] => .ok s
  | f :: rest =>
    match f buf s with
    | .error e => .error (e, s)
    | .ok s' => runStages rest buf s'

/-- `_SplittableHandHistory.parse`: run `parse_header` first unless
`header_parsed` (the header routine sets the flag on success), then the
stage sequence; on success `del self._splitted` and `self.parsed = True`.
On a raise the flags and buffer are left exactly as they were. -/
def parse (hdr : Stage σ β ε) (stages : List (Stage σ β ε))
    (st : ParseState σ β) :
    Except (ε × ParseState σ β) (ParseState σ β) :=
  match (if st.headerParsed then Except.ok st.fields
         else hdr st.splitted st.fields) with
  | .error e => .error (e, st)
  | .ok s0 =>
    match runStages stages st.splitted s0 with
    | .error es => .error (es.1, { st with fields := es.2, headerParsed := true })
    | .ok sf => .ok ⟨sf, true, true, none⟩

/-- The thirteen stage methods `parse` invokes, in source order. -/
def ftpStageNames : List String :=
  ["table", "players", "button", "hero", "preflop", "flop", "turn",
   "river", "showdown", "pot", "board", "winners", "extra"]

/-- The exceptions the re-parse scenario can surface: accessing the
deleted `self._splitted` (`AttributeError`) or the unbound loop variable
`seat` (`NameError`). -/
inductive PyErr where
  | attributeError | nameError
  deriving DecidableEq, Repr

/-- The fields `_parse_table` and `_parse_players` touch. -/
structure FTPFields where
  players : Option (List Player)
  maxPlayers : Option Nat
  deriving DecidableEq

/-- `FullTiltPokerHandHistory._parse_table`: `pass` (the table was parsed
in `parse_header`); it never reads the fragment buffer. -/
def tableStage : Stage FTPFields (List (Option SeatLine)) PyErr :=
  fun _ s => .ok s

/-- `FullTiltPokerHandHistory._parse_players` as a stage: it first builds
a local seat list, then iterates `self._splitted[1:]` — so with the buffer
deleted it raises before mutating any field; with a buffer present it runs
`parsePlayers`, raising `NameError` when no seat line matched, otherwise
assigning `max_players` and `players`.  The buffer is viewed through the
seat regex as the match result of each line after the header. -/
def playersStage : Stage FTPFields (List (Option SeatLine)) PyErr :=
  fun buf s =>
    match buf with
    | none => .error .attributeError
    | some lines =>
      match parsePlayers lines with
      | none => .error .nameError
      | some r => .ok { s with maxPlayers := some r.2, players := some r.1 }

/-- A flop of three same-suited cards, the concrete input exhibiting the
shared-generator exhaustion of `_BaseStreet`. -/
def monotoneFlop : List Card :=
  [⟨.ACE, .SPADES⟩, ⟨.KING, .SPADES⟩, ⟨.QUEEN, .SPADES⟩]

/-- The seat lines the `_parse_players` loop actually processes: the
matched lines before the first non-matching one (the loop `break`). -/
def matchedSeats (lines : List (Option SeatLine)) : List SeatLine :=
  (lines.takeWhile Option.isSome).filterMap id

/-! ## Helper lemmas -/

theorem Rank.difference_comm (a b : Rank) :
    Rank.difference a b = Rank.difference b a := by
  unfold Rank.difference; omega

theorem Rank.difference_self (a : Rank) : Rank.difference a a = 0 := by
  unfold Rank.difference; omega

theorem Rank.difference_canonical (a b : Rank) :
    Rank.difference a b =
      ((a.canonicalPos : Int) - (b.canonicalPos : Int)).natAbs := by
  cases a <;> cases b <;> rfl

/-! ## Claim theorems -/

/-- C5: `Rank.difference` is symmetric (also through raw rank codes),
zero on the diagonal, and equals the absolute distance of the two ranks'
positions in the canonical sequence 2,3,...,K,A — so ACE↔DEUCE is 12, not
the face-value difference |1 − 2| (the Ace's raw numeric value being 1). -/
theorem rank_difference_spec :
    (∀ a b : Rank, Rank.difference a b = Rank.difference b a) ∧
    (∀ a : Rank, Rank.difference a a = 0) ∧
    (∀ a b : Rank, Rank.difference a b =
      ((a.canonicalPos : Int) - (b.canonicalPos : Int)).natAbs) ∧
    Rank.difference .ACE .DEUCE = 12 ∧
    Rank.faceValue .ACE = some 1 ∧
    (∀ c1 c2 : Char,
      Rank.differenceOfCodes c1 c2 = Rank.differenceOfCodes c2 c1) ∧
    (∀ c : Char,
      Rank.differenceOfCodes c c = (Rank.ofChar c).map (fun _ => 0)) :=
  ⟨Rank.difference_comm, Rank.difference_self, Rank.difference_canonical,
   by decide, rfl,
   fun c1 c2 => by
    unfold Rank.differenceOfCodes
    cases Rank.ofChar c1 <;> cases Rank.ofChar c2 <;>
      simp [Rank.difference_comm],
   fun c => by
    unfold Rank.differenceOfCodes
    cases Rank.ofChar c <;> simp [Rank.difference_self]⟩

/-- C1: refuted in the code — `_BaseStreet` stores
`itertools.combinations(self.cards, 2)` once, so the first texture
property queried exhausts the shared generator and every later property is
computed over no pairs at all.  On a monotone flop, querying `is_monotone`
first yields `True` (consuming all three pairs) and a subsequent
`is_rainbow` yields `True` as well (an `all(...)` over an empty
generator), while the spec value of `is_rainbow` — computed over all three
unordered pairs — is `False`. -/
theorem texture_generator_exhaustion :
    queryList (initT monotoneFlop) [.isMonotone, .isRainbow] = [true, true] ∧
    specTexture .isRainbow monotoneFlop = false ∧
    specTexture .isMonotone monotoneFlop = true := by
  refine ⟨?_, ?_, ?_⟩ <;> decide

/-- C3: the board is the concatenation of the flop cards with the turn
(only if a flop is present) and the river (only if a turn is present):
no flop gives no board regardless of turn/river, a flop with no turn gives
the flop cards only even if a river value were present, and a 3-card
summary board line yields `turn is None` and `river is None`. -/
theorem board_concatenation_spec :
    (∀ t r, board none t r = none) ∧
    (∀ c1 c2 c3 r, board (some [c1, c2, c3]) none r = some [c1, c2, c3]) ∧
    (∀ c1 c2 c3 t, board (some [c1, c2, c3]) (some t) none =
      some [c1, c2, c3, t]) ∧
    (∀ c1 c2 c3 t r, board (some [c1, c2, c3]) (some t) (some r) =
      some [c1, c2, c3, t, r]) ∧
    (∀ c1 c2 c3 : Card, parseBoardTail [c1, c2, c3] = (none, none)) :=
  ⟨fun _ _ => rfl, fun _ _ _ _ => rfl, fun _ _ _ _ => rfl,
   fun _ _ _ _ _ => rfl, fun _ _ _ => rfl⟩

/-- C6: `Card(text)` fails with an `InvalidCardFormat` error exactly when
the text's length is not 2 or either character is not a recognized
rank/suit code, and every valid 2-character code constructs the card with
the corresponding rank and suit.  (Comparison, `Card.lt`, is a total
function of the model: the error can only arise in `Card.ofText`.) -/
theorem card_construction_spec (s : String) :
    ((∃ e, Card.ofText s = .error e) ↔
      (s.data.length ≠ 2 ∨ ∃ rc sc, s.data = [rc, sc] ∧
        (Rank.ofChar rc = none ∨ Suit.ofChar sc = none))) ∧
    (∀ rc sc r su, s.data = [rc, sc] → Rank.ofChar rc = some r →
      Suit.ofChar sc = some su → Card.ofText s = .ok ⟨r, su⟩) := by
  have hdef : Card.ofText s =
      (match s.data with
       | [rc, sc] =>
         match Rank.ofChar rc with
         | none => .error (.badRank rc)
         | some r =>
           match Suit.ofChar sc with
           | none => .error (.badSuit sc)
           | some su => .ok ⟨r, su⟩
       | _ => .error (.badLength s)) := rfl
  constructor
  · rcases hd : s.data with _ | ⟨rc, _ | ⟨sc, _ | ⟨c3, tl⟩⟩⟩ <;>
      rw [hdef, hd]
    · simp
    · simp
    · cases hr : Rank.ofChar rc <;> cases hs : Suit.ofChar sc <;>
        simp [hr, hs] <;>
        exact ⟨rc, sc, ⟨rfl, rfl⟩, by simp [hr, hs]⟩
    · simp
  · intro rc sc r su hd hr hs
    rw [hdef, hd]
    simp [hr, hs]

/-- Witness for C6 at concrete codes: `"As"` constructs the ace of
spades; the one-character text `"A"` fails with an error. -/
theorem card_construction_spec_witness :
    Card.ofText "As" = .ok ⟨.ACE, .SPADES⟩ ∧
    (∃ e, Card.ofText "A" = .error e) :=
  ⟨(card_construction_spec "As").2 'A' 's' .ACE .SPADES rfl rfl rfl,
   (card_construction_spec "A").1.mpr (Or.inl (by decide))⟩

theorem collectNames_eq (l : List String) (acc : List String) :
    collectNames l acc =
      acc ++ firstAppearance (l.filter (fun x => decide (x ∉ acc))) := by
  induction l generalizing acc with
  | nil => simp [collectNames, firstAppearance]
  | cons n rest ih =>
    by_cases hn : n ∈ acc
    · rw [collectNames, if_pos hn, ih]
      simp [List.filter_cons, hn]
    · rw [collectNames, if_neg hn, ih]
      have hfil : (n :: rest).filter (fun x => decide (x ∉ acc)) =
          n :: rest.filter (fun x => decide (x ∉ acc)) := by
        simp [List.filter_cons, hn]
      rw [hfil, firstAppearance, List.append_assoc]
      congr 1
      rw [List.filter_filter, List.singleton_append]
      congr 1
      apply congrArg
      apply List.filter_congr
      intro x _
      by_cases hx : x = n <;> by_cases hax : x ∈ acc <;>
        simp [hx, hax]

theorem firstAppearance_bounded :
    ∀ (n : Nat) (l : List String), l.length ≤ n →
      ((∀ x, x ∈ firstAppearance l ↔ x ∈ l) ∧
        (firstAppearance l).Nodup) := by
  intro n
  induction n with
  | zero =>
    intro l hl
    have : l = [] := List.length_eq_zero.mp (Nat.le_zero.mp hl)
    subst this
    simp [firstAppearance]
  | succ n ih =>
    intro l hl
    cases l with
    | nil => simp [firstAppearance]
    | cons a rest =>
      have hlen : (rest.filter (fun m => m != a)).length ≤ n :=
        le_trans (List.length_filter_le _ _)
          (Nat.le_of_succ_le_succ hl)
      obtain ⟨ihmem, ihnodup⟩ := ih _ hlen
      rw [firstAppearance]
      constructor
      · intro x
        simp only [List.mem_cons, ihmem, List.mem_filter, bne_iff_ne]
        constructor
        · rintro (h | ⟨h, _⟩)
          · exact Or.inl h
          · exact Or.inr h
        · rintro (h | h)
          · exact Or.inl h
          · by_cases hx : x = a
            · exact Or.inl hx
            · exact Or.inr ⟨h, hx⟩
      · refine List.nodup_cons.mpr ⟨?_, ihnodup⟩
        intro hmem
        have := (ihmem a).mp hmem
        simp [List.mem_filter] at this

/-- C7: the street's `players` property is the tuple of distinct actor
names in first-appearance order across the street's actions, and an
explicit `None` sentinel — not an empty sequence — when there are zero
actions (`self.actions` being `None` or empty). -/
theorem street_players_spec :
    streetPlayers none = none ∧
    streetPlayers (some []) = none ∧
    (∀ acts : List PlayerAction,
      streetPlayers (some acts) =
        if acts.isEmpty then none
        else some (firstAppearance (acts.map (fun a => a.name)))) ∧
    (∀ l : List String, (firstAppearance l).Nodup) ∧
    (∀ (l : List String) (x : String),
      x ∈ firstAppearance l ↔ x ∈ l) := by
  have hcollect : ∀ names : List String,
      collectNames names [] = firstAppearance names := by
    intro names
    rw [collectNames_eq]
    simp
  refine ⟨rfl, rfl, ?_, ?_, ?_⟩
  · intro acts
    cases acts with
    | nil => rfl
    | cons a rest => simp [streetPlayers, hcollect]
  · intro l
    exact (firstAppearance_bounded l.length l le_rfl).2
  · intro l x
    exact (firstAppearance_bounded l.length l le_rfl).1 x

theorem parseActionsLoop_fst (lines : List ActionLine)
    (acc : List PlayerAction) (pot : Option Nat) :
    (parseActionsLoop lines acc pot).1 =
      acc ++ lines.map (fun l => (parseActionLine l).1) := by
  induction lines generalizing acc pot with
  | nil => simp [parseActionsLoop]
  | cons l rest ih => simp [parseActionsLoop, ih]

theorem parseActionsLoop_snd (lines : List ActionLine) (pot : Option Nat) :
    (parseActionsLoop lines [] pot).2 =
      (match (lines.filterMap (fun l => (parseActionLine l).2)).getLast? with
       | some m => some m
       | none => pot) := by
  suffices h : ∀ (acc : List PlayerAction),
      (parseActionsLoop lines acc pot).2 =
        (match (lines.filterMap (fun l => (parseActionLine l).2)).getLast? with
         | some m => some m
         | none => pot) from h []
  induction lines generalizing pot with
  | nil => intro acc; simp [parseActionsLoop]
  | cons l rest ih =>
    intro acc
    rw [parseActionsLoop]
    cases hl : (parseActionLine l).2 with
    | none => rw [ih]; simp [List.filterMap_cons, hl, Option.orElse]
    | some a =>
      rw [ih]
      simp only [List.filterMap_cons, hl]
      cases hrest : (rest.filterMap (fun x => (parseActionLine x).2)) with
      | nil => simp [Option.orElse]
      | cons b bs =>
        simp only [List.getLast?_cons_cons]
        cases h : (b :: bs).getLast? with
        | none => exact absurd (List.getLast?_eq_none_iff.mp h) (by simp)
        | some m => rfl

/-- C10: the street's `pot` field is non-`None` exactly when the action
lines include a `wins the pot` line; in that case the pot equals the
parenthesized amount of such a line (the last one, when several occur),
and that same amount is the amount of the corresponding `WIN` action in
`self.actions`. -/
theorem street_pot_spec (lines : List ActionLine) :
    ((parseActions lines).2 ≠ none ↔
      ∃ n a, ActionLine.winsPot n a ∈ lines) ∧
    (∀ a, (parseActions lines).2 = some a →
      ∃ n, ActionLine.winsPot n a ∈ lines ∧
        ∃ acts, (parseActions lines).1 = some acts ∧
          (⟨n, .WIN, some a⟩ : PlayerAction) ∈ acts) := by
  have hwin : ∀ l : ActionLine, ∀ a, (parseActionLine l).2 = some a ↔
      ∃ n, l = .winsPot n a := by
    intro l a
    cases l <;> simp [parseActionLine]
  have hlastmem : ∀ (l : List Nat) (m : Nat), l.getLast? = some m → m ∈ l := by
    intro l m h
    obtain ⟨hne, heq⟩ := List.mem_getLast?_eq_getLast (Option.mem_def.mpr h)
    exact heq ▸ List.getLast_mem hne
  have hsnd := parseActionsLoop_snd lines none
  constructor
  · rw [show (parseActions lines).2 = (parseActionsLoop lines [] none).2
        from rfl, hsnd]
    cases hlast : (lines.filterMap (fun l => (parseActionLine l).2)).getLast?
      with
    | none =>
      have hempty : lines.filterMap (fun l => (parseActionLine l).2) = [] :=
        List.getLast?_eq_none_iff.mp hlast
      constructor
      · intro h; exact absurd rfl h
      · rintro ⟨n, a, hmem⟩
        have hin : a ∈ lines.filterMap (fun l => (parseActionLine l).2) :=
          List.mem_filterMap.mpr ⟨_, hmem, by simp [parseActionLine]⟩
        rw [hempty] at hin
        exact absurd hin (List.not_mem_nil a)
    | some m =>
      constructor
      · intro _
        obtain ⟨l, hl, hval⟩ :=
          List.mem_filterMap.mp (hlastmem _ _ hlast)
        obtain ⟨n, rfl⟩ := (hwin l m).mp hval
        exact ⟨n, m, hl⟩
      · intro _; simp
  · intro a ha
    rw [show (parseActions lines).2 = (parseActionsLoop lines [] none).2
        from rfl, hsnd] at ha
    have hmem : a ∈ lines.filterMap (fun l => (parseActionLine l).2) := by
      cases hlast : (lines.filterMap (fun l => (parseActionLine l).2)).getLast?
        with
      | none => rw [hlast] at ha; simp at ha
      | some m =>
        rw [hlast] at ha
        simp only [Option.some.injEq] at ha
        subst ha
        exact hlastmem _ _ hlast
    obtain ⟨l, hl, hval⟩ := List.mem_filterMap.mp hmem
    obtain ⟨n, rfl⟩ := (hwin l a).mp hval
    refine ⟨n, hl, ?_⟩
    have hact : (⟨n, .WIN, some a⟩ : PlayerAction) ∈
        lines.map (fun l => (parseActionLine l).1) :=
      List.mem_map.mpr ⟨.winsPot n a, hl, rfl⟩
    have hne : lines.map (fun l => (parseActionLine l).1) ≠ [] := by
      intro h; rw [h] at hact; simp at hact
    refine ⟨lines.map (fun l => (parseActionLine l).1), ?_, hact⟩
    show (if (parseActionsLoop lines [] none).1 = [] then none
      else some (parseActionsLoop lines [] none).1) = _
    rw [parseActionsLoop_fst]
    simp [hne]

/-- Witness for C10 at a concrete street: the single line
`bob wins the pot (300)` makes the pot 300 and records a matching `WIN`
action. -/
theorem street_pot_spec_witness :
    ∃ n, ActionLine.winsPot n 300 ∈ [ActionLine.winsPot "bob" 300] ∧
      ∃ acts, (parseActions [ActionLine.winsPot "bob" 300]).1 = some acts ∧
        (⟨n, .WIN, some 300⟩ : PlayerAction) ∈ acts :=
  (street_pot_spec [ActionLine.winsPot "bob" 300]).2 300 rfl

theorem matchedSeats_nil : matchedSeats [] = [] := rfl

theorem matchedSeats_none (rest : List (Option SeatLine)) :
    matchedSeats (none :: rest) = [] := rfl

theorem matchedSeats_some (sl : SeatLine)
    (rest : List (Option SeatLine)) :
    matchedSeats (some sl :: rest) = sl :: matchedSeats rest := by
  simp [matchedSeats, List.takeWhile_cons]

theorem parsePlayersLoop_length (lines : List (Option SeatLine))
    (ps : List Player) (last : Option Nat) :
    (parsePlayersLoop lines ps last).1.length = ps.length := by
  induction lines generalizing ps last with
  | nil => rfl
  | cons l rest ih =>
    cases l with
    | none => rfl
    | some sl => rw [parsePlayersLoop, ih]; simp

theorem parsePlayersLoop_seat (lines : List (Option SeatLine))
    (ps : List Player) (last : Option Nat)
    (hrange : ∀ sl ∈ matchedSeats lines, 1 ≤ sl.seat)
    (hinv : ∀ i p, ps[i]? = some p → p.seat = i + 1) :
    ∀ i p, (parsePlayersLoop lines ps last).1[i]? = some p →
      p.seat = i + 1 := by
  induction lines generalizing ps last with
  | nil => exact hinv
  | cons l rest ih =>
    cases l with
    | none => exact hinv
    | some sl =>
      rw [parsePlayersLoop]
      have hsl : 1 ≤ sl.seat :=
        hrange sl (by rw [matchedSeats_some]; exact List.mem_cons_self _ _)
      apply ih
      · intro x hx
        exact hrange x
          (by rw [matchedSeats_some]; exact List.mem_cons_of_mem _ hx)
      · intro i p hp
        rw [List.getElem?_set] at hp
        by_cases h : sl.seat - 1 = i
        · rw [if_pos h] at hp
          by_cases h2 : sl.seat - 1 < ps.length
          · rw [if_pos h2] at hp
            cases hp
            show sl.seat = i + 1
            omega
          · rw [if_neg h2] at hp
            cases hp
        · rw [if_neg h] at hp
          exact hinv i p hp

theorem parsePlayersLoop_placeholder (lines : List (Option SeatLine))
    (ps : List Player) (last : Option Nat) (i : Nat)
    (hrange : ∀ sl ∈ matchedSeats lines, 1 ≤ sl.seat)
    (hno : ∀ sl ∈ matchedSeats lines, sl.seat ≠ i + 1) :
    (parsePlayersLoop lines ps last).1[i]? = ps[i]? := by
  induction lines generalizing ps last with
  | nil => rfl
  | cons l rest ih =>
    cases l with
    | none => rfl
    | some sl =>
      rw [parsePlayersLoop]
      have hmem : sl ∈ matchedSeats (some sl :: rest) := by
        rw [matchedSeats_some]; exact List.mem_cons_self _ _
      have htail : ∀ x ∈ matchedSeats rest,
          x ∈ matchedSeats (some sl :: rest) := by
        intro x hx; rw [matchedSeats_some]; exact List.mem_cons_of_mem _ hx
      rw [ih _ _ (fun x hx => hrange x (htail x hx))
        (fun x hx => hno x (htail x hx))]
      apply List.getElem?_set_ne
      have h1 : 1 ≤ sl.seat := hrange sl hmem
      have h2 : sl.seat ≠ i + 1 := hno sl hmem
      omega

theorem parsePlayersLoop_last (lines : List (Option SeatLine))
    (ps : List Player) (last : Option Nat) :
    (parsePlayersLoop lines ps last).2 =
      (match ((matchedSeats lines).map (fun sl => sl.seat)).getLast? with
       | some m => some m
       | none => last) := by
  induction lines generalizing ps last with
  | nil => rfl
  | cons l rest ih =>
    cases l with
    | none => rfl
    | some sl =>
      rw [parsePlayersLoop, ih, matchedSeats_some]
      simp only [List.map_cons]
      cases hrest : ((matchedSeats rest).map (fun sl => sl.seat)) with
      | nil => rfl
      | cons b bs =>
        simp only [List.getLast?_cons_cons]
        cases h : (b :: bs).getLast? with
        | none => exact absurd (List.getLast?_eq_none_iff.mp h) (by simp)
        | some m => rfl

theorem initSeats_length (n : Nat) : (initSeats n).length = n := by
  simp [initSeats]

theorem initSeats_getElem (n i : Nat) (hi : i < n) :
    (initSeats n)[i]? = some (emptySeat (i + 1)) := by
  simp [initSeats, hi]

theorem initSeats_seat (n : Nat) :
    ∀ i p, (initSeats n)[i]? = some p → p.seat = i + 1 := by
  intro i p hp
  by_cases hi : i < n
  · rw [initSeats_getElem n i hi] at hp
    cases hp
    rfl
  · rw [List.getElem?_eq_none (by rw [initSeats_length]; omega)] at hp
    cases hp

theorem parsePlayers_shape (lines : List (Option SeatLine))
    (ps : List Player) (maxp : Nat)
    (hok : parsePlayers lines = some (ps, maxp)) :
    (parsePlayersLoop lines (initSeats 9) none).2 = some maxp ∧
    ps = (parsePlayersLoop lines (initSeats 9) none).1.take maxp := by
  unfold parsePlayers at hok
  rcases h : parsePlayersLoop lines (initSeats 9) none with ⟨ps0, last⟩
  rw [h] at hok
  cases last with
  | none => exact absurd hok (by simp)
  | some m =>
    simp only [Option.some.injEq, Prod.mk.injEq] at hok
    obtain ⟨h1, h2⟩ := hok
    subst h2
    exact ⟨rfl, h1.symm⟩

/-- C8: after `_parse_players`, the players list is indexed by seat
(`players[i].seat == i + 1`), every seat that no processed seat line
mentions still holds the `Empty Seat` placeholder, and the list length is
the seat number of the last seat line the loop parsed. -/
theorem parse_players_spec (lines : List (Option SeatLine))
    (ps : List Player) (maxp : Nat)
    (hrange : ∀ sl ∈ matchedSeats lines, 1 ≤ sl.seat ∧ sl.seat ≤ 9)
    (hok : parsePlayers lines = some (ps, maxp)) :
    ps.length = maxp ∧
    ((matchedSeats lines).map (fun sl => sl.seat)).getLast? = some maxp ∧
    (∀ i p, ps[i]? = some p → p.seat = i + 1) ∧
    (∀ i, i < ps.length → (∀ sl ∈ matchedSeats lines, sl.seat ≠ i + 1) →
      ps[i]? = some (emptySeat (i + 1))) := by
  obtain ⟨hlastok, hps⟩ := parsePlayers_shape lines ps maxp hok
  have hlen0 : (parsePlayersLoop lines (initSeats 9) none).1.length = 9 := by
    rw [parsePlayersLoop_length, initSeats_length]
  have hgl : ((matchedSeats lines).map (fun sl => sl.seat)).getLast? =
      some maxp := by
    have hlast := parsePlayersLoop_last lines (initSeats 9) none
    rw [hlastok] at hlast
    cases h : ((matchedSeats lines).map (fun sl => sl.seat)).getLast? with
    | none => rw [h] at hlast; cases hlast
    | some k =>
      rw [h] at hlast
      simp only [Option.some.injEq] at hlast
      rw [hlast]
  have hmax9 : maxp ≤ 9 := by
    have hmem : maxp ∈ (matchedSeats lines).map (fun sl => sl.seat) := by
      obtain ⟨hne, heq⟩ :=
        List.mem_getLast?_eq_getLast (Option.mem_def.mpr hgl)
      exact heq ▸ List.getLast_mem hne
    obtain ⟨sl, hsl, hseq⟩ := List.mem_map.mp hmem
    exact hseq ▸ (hrange sl hsl).2
  have hlen : ps.length = maxp := by
    rw [hps, List.length_take, hlen0]
    omega
  refine ⟨hlen, hgl, ?_, ?_⟩
  · intro i p hp
    apply parsePlayersLoop_seat lines (initSeats 9) none
      (fun sl h => (hrange sl h).1) (initSeats_seat 9) i p
    rw [hps] at hp
    have hi : i < maxp := by
      by_contra hni
      rw [List.getElem?_take_eq_none (by omega)] at hp
      cases hp
    rw [List.getElem?_take_of_lt hi] at hp
    exact hp
  · intro i hilen hno
    have hph := parsePlayersLoop_placeholder lines (initSeats 9) none i
      (fun sl h => (hrange sl h).1) hno
    have hi : i < maxp := by rw [hlen] at hilen; exact hilen
    rw [hps, List.getElem?_take_of_lt hi, hph,
      initSeats_getElem 9 i (by omega)]

/-- Witness for C8 at two seat lines (`Seat 1`, `Seat 2`) followed by a
non-matching line: the parse yields a 2-player list with seat `i + 1` at
index `i`. -/
theorem parse_players_spec_witness :
    ∃ ps maxp, parsePlayers
        [some ⟨1, "alice", 1500⟩, some ⟨2, "bob", 3000⟩, none] =
        some (ps, maxp) ∧ ps.length = maxp ∧
      (∀ i p, ps[i]? = some p → p.seat = i + 1) := by
  refine ⟨[⟨"alice", 1500, 1, none⟩, ⟨"bob", 3000, 2, none⟩], 2, by decide,
    ?_, ?_⟩ <;>
  · have := parse_players_spec
      [some ⟨1, "alice", 1500⟩, some ⟨2, "bob", 3000⟩, none]
      [⟨"alice", 1500, 1, none⟩, ⟨"bob", 3000, 2, none⟩] 2
      (by decide) (by decide)
    first
    | exact this.1
    | exact this.2.2.1

theorem getHeroFromPlayers_eq (players : List Player) (heroName : String)
    (hero0 : Player) (i : Nat)
    (h : getHeroFromPlayers players heroName = some (hero0, i)) :
    players[i]? = some hero0 ∧ hero0.name = heroName := by
  unfold getHeroFromPlayers at h
  split at h
  · cases h
  · rename_i j hf
    split at h
    · cases h
    · rename_i p hg
      simp only [Option.some.injEq, Prod.mk.injEq] at h
      obtain ⟨hp, hj⟩ := h
      subst hp
      subst hj
      refine ⟨hg, ?_⟩
      obtain ⟨hlt, hpred, -⟩ := List.findIdx?_eq_some_iff_getElem.mp hf
      rw [List.getElem?_eq_getElem hlt] at hg
      cases hg
      exact eq_of_beq hpred

/-- C4: after the hero stage, if the button's seat equals the hero's seat
then the button reference is the enriched hero value itself — whose combo
is the hero's hole cards — not a stale pre-enrichment copy.  The
hypothesis `hinv` is the seat-indexing invariant `_parse_players`
establishes (C8). -/
theorem button_hero_alias (players : List Player) (buttonSeat : Nat)
    (button : Player) (heroName : String) (combo : Combo)
    (players' : List Player) (button' hero : Player)
    (hinv : ∀ i p, players[i]? = some p → p.seat = i + 1)
    (hbtn : parseButton players buttonSeat = some button)
    (hhero : parseHero players button heroName combo =
      some (players', button', hero)) :
    (button'.seat = hero.seat → button' = hero) ∧
    hero.combo = some combo := by
  unfold parseHero at hhero
  unfold parseButton at hbtn
  split at hhero
  · cases hhero
  · rename_i pr hero0 i hg
    simp only [Option.some.injEq, Prod.mk.injEq] at hhero
    obtain ⟨hp', hb', hh'⟩ := hhero
    subst hp'
    subst hb'
    subst hh'
    obtain ⟨hmem, hname⟩ :=
      getHeroFromPlayers_eq players heroName hero0 i hg
    have hheroSeat : hero0.seat = i + 1 := hinv i hero0 hmem
    have hbtnSeat : button.seat = (buttonSeat - 1) + 1 :=
      hinv (buttonSeat - 1) button hbtn
    refine ⟨?_, rfl⟩
    intro hseat
    by_cases hn : button.name = hero0.name
    · rw [if_pos hn]
    · rw [if_neg hn] at hseat ⊢
      exfalso
      apply hn
      simp only at hseat
      have hidx : buttonSeat - 1 = i := by omega
      have hbe : button = hero0 := by
        rw [hidx] at hbtn
        rw [hbtn] at hmem
        exact Option.some.inj hmem
      rw [hbe]

/-- Witness for C4: a 2-player table, button in seat 2, hero `"bob"` in
seat 2 — after the hero stage the button is the enriched hero. -/
theorem button_hero_alias_witness :
    ∃ players' button' hero,
      parseHero [⟨"alice", 1500, 1, none⟩, ⟨"bob", 3000, 2, none⟩]
        ⟨"bob", 3000, 2, none⟩ "bob" "AhKs" =
        some (players', button', hero) ∧
      button' = hero ∧ hero.combo = some "AhKs" := by
  refine ⟨[⟨"alice", 1500, 1, none⟩, ⟨"bob", 3000, 2, some "AhKs"⟩],
    ⟨"bob", 3000, 2, some "AhKs"⟩, ⟨"bob", 3000, 2, some "AhKs"⟩,
    rfl, ?_, ?_⟩
  · exact (button_hero_alias
      [⟨"alice", 1500, 1, none⟩, ⟨"bob", 3000, 2, none⟩] 2
      ⟨"bob", 3000, 2, none⟩ "bob" "AhKs" _ _ _
      (by intro i p hp; rcases i with _ | _ | n
          · cases hp; rfl
          · cases hp; rfl
          · cases hp) rfl rfl).1 rfl
  · exact (button_hero_alias
      [⟨"alice", 1500, 1, none⟩, ⟨"bob", 3000, 2, none⟩] 2
      ⟨"bob", 3000, 2, none⟩ "bob" "AhKs" _ _ _
      (by intro i p hp; rcases i with _ | _ | n
          · cases hp; rfl
          · cases hp; rfl
          · cases hp) rfl rfl).2

/-- C9: `parse` runs the thirteen stage methods
(`ftpStageNames.length = 13`) and only after all of them complete does it
set the `parsed` flag and discard the split-fragment buffer; when the
header parse or any stage raises, `parsed` and the buffer are left
exactly as they were (in particular still unset/undiscarded on a fresh
object). -/
theorem parse_flag_buffer_spec (σ β ε : Type) (hdr : Stage σ β ε)
    (stages : List (Stage σ β ε)) (st : ParseState σ β) :
    ftpStageNames.length = 13 ∧
    (∀ st', parse hdr stages st = .ok st' →
      st'.parsed = true ∧ st'.splitted = none) ∧
    (∀ e st'', parse hdr stages st = .error (e, st'') →
      st''.parsed = st.parsed ∧ st''.splitted = st.splitted) := by
  refine ⟨rfl, ?_, ?_⟩
  · intro st' h
    unfold parse at h
    split at h
    · cases h
    · split at h
      · cases h
      · cases h
        exact ⟨rfl, rfl⟩
  · intro e st'' h
    unfold parse at h
    split at h
    · cases h
      exact ⟨rfl, rfl⟩
    · split at h
      · cases h
        exact ⟨rfl, rfl⟩
      · cases h

/-- Witness for C9: a one-stage pipeline that succeeds (flag set, buffer
discarded) and a failing pipeline (flag and buffer untouched). -/
theorem parse_flag_buffer_spec_witness :
    ((⟨(), true, true, none⟩ : ParseState Unit Unit).parsed = true ∧
      (⟨(), true, true, none⟩ : ParseState Unit Unit).splitted = none) ∧
    ((⟨(), true, false, some ()⟩ : ParseState Unit Unit).parsed = false ∧
      (⟨(), true, false, some ()⟩ : ParseState Unit Unit).splitted =
        some ()) := by
  constructor
  · exact (parse_flag_buffer_spec Unit Unit Unit (fun _ s => .ok s) []
      ⟨(), false, false, some ()⟩).2.1 ⟨(), true, true, none⟩ rfl
  · exact (parse_flag_buffer_spec Unit Unit Unit (fun _ s => .ok s)
      [fun _ _ => .error ()] ⟨(), false, false, some ()⟩).2.2 ()
      ⟨(), true, false, some ()⟩ rfl

/-- C2: calling `parse` again after a successful parse is rejected: the
success deleted the fragment buffer, the re-run skips the header
(`header_parsed` is set), `_parse_table` is a `pass`, and
`_parse_players` raises on its very first buffer access before mutating
anything — the call fails with an error and returns the object exactly as
it was (every parsed field unchanged). -/
theorem parse_reparse_rejected
    (rest : List (Stage FTPFields (List (Option SeatLine)) PyErr))
    (hdr : Stage FTPFields (List (Option SeatLine)) PyErr)
    (st st' : ParseState FTPFields (List (Option SeatLine)))
    (h : parse hdr (tableStage :: playersStage :: rest) st = .ok st') :
    parse hdr (tableStage :: playersStage :: rest) st' =
      .error (.attributeError, st') := by
  obtain ⟨hsh1, hsh2, hsh3⟩ :
      st'.headerParsed = true ∧ st'.parsed = true ∧ st'.splitted = none := by
    unfold parse at h
    split at h
    · cases h
    · split at h
      · cases h
      · cases h
        exact ⟨rfl, rfl, rfl⟩
  rcases st' with ⟨f, hp, pd, sp⟩
  simp only at hsh1 hsh2 hsh3
  subst hsh1
  subst hsh2
  subst hsh3
  rfl

/-- Witness for C2: a concrete hand with one seat line parses
successfully; the second `parse` call fails with `AttributeError` and
returns the state unchanged. -/
theorem parse_reparse_rejected_witness :
    parse (fun _ s => Except.ok s) (tableStage :: playersStage :: [])
      ⟨⟨some [⟨"alice", 1500, 1, none⟩], some 1⟩, true, true, none⟩ =
      .error (.attributeError,
        ⟨⟨some [⟨"alice", 1500, 1, none⟩], some 1⟩, true, true, none⟩) :=
  parse_reparse_rejected [] (fun _ s => Except.ok s)
    ⟨⟨none, none⟩, false, false, some [some ⟨1, "alice", 1500⟩]⟩ _ rfl

end Poker
